import Mathlib

set_option maxRecDepth 100000

/-!
# Verification of the pantry-pal Ingredient Compatibility Engine

Shallow embedding of the ingredient-compatibility pipeline of
`src/backend/main.py` (the functions `extract_main_ingredient`,
`calculate_dynamic_pmi_threshold` and the `/compatibility/` endpoint
`get_ingredient_compatibility`), together with theorems settling the
spec claims about it.

Modelling conventions:
* Python strings are `String` / `List Char`; regex character classes
  (`\w`, `\s`, `\d`) are modelled at ASCII scope.
* Python floats are modelled as exact rationals `ℚ`.  The standard `ℚ`
  arithmetic of the library is `@[irreducible]`, so the executable
  definitions use the kernel-reducible wrappers `qadd`, `qmul`,
  `qdivNat` below; bridge lemmas identify them with `+`, `*`, `/`.
* The Python dict `pmi_scores` is a finite map, modelled as a function
  `String × String → Option ℚ`; the networkx vocabulary graph `G_full`
  is used only for node membership and is modelled as a `List String`.
-/

namespace PantryPal

/-! ## Kernel-reducible rational arithmetic -/

/-- Addition on `ℚ` via `mkRat`, which the kernel can evaluate. -/
def qadd (a b : ℚ) : ℚ := mkRat (a.num * b.den + b.num * a.den) (a.den * b.den)

/-- Multiplication on `ℚ` via `mkRat`. -/
def qmul (a b : ℚ) : ℚ := mkRat (a.num * b.num) (a.den * b.den)

/-- Division of a rational by a natural number via `mkRat`. -/
def qdivNat (a : ℚ) (n : ℕ) : ℚ := mkRat a.num (a.den * n)

theorem qadd_eq (a b : ℚ) : qadd a b = a + b := by
  have ha0 : (a.den : ℚ) ≠ 0 := by exact_mod_cast a.den_nz
  have hb0 : (b.den : ℚ) ≠ 0 := by exact_mod_cast b.den_nz
  rw [qadd, Rat.mkRat_eq_div]
  conv_rhs => rw [← Rat.num_div_den a, ← Rat.num_div_den b]
  rw [div_add_div _ _ ha0 hb0]
  push_cast
  ring_nf

theorem qmul_eq (a b : ℚ) : qmul a b = a * b := by
  rw [qmul, Rat.mkRat_eq_div]
  conv_rhs => rw [← Rat.num_div_den a, ← Rat.num_div_den b]
  push_cast
  rw [div_mul_div_comm]

theorem qdivNat_eq (a : ℚ) (n : ℕ) : qdivNat a n = a / n := by
  rw [qdivNat, Rat.mkRat_eq_div]
  conv_rhs => rw [← Rat.num_div_den a]
  push_cast
  rw [div_div]

/-! ## Canonicalizer: `extract_main_ingredient` (main.py lines 565-673)

The Python function applies, in order: lowercasing, removal of
parenthesised substrings (`re.sub(r'\(.*?\)', '')`), whole-word removal
of each modifier in `forms` (`re.sub(rf'\b(form)\b', '')`), removal of
measurements (`re.sub(r'\b\d+\s*\w*\b', '')`), whitespace collapsing and
stripping, first-match suffix patterns (`re.fullmatch(r'.*X$', _)`), and
first-match exact replacements. -/

/-- Python regex `\w` at ASCII scope: letters, digits, underscore. -/
def isWordChar (c : Char) : Bool := c.isAlphanum || c == '_'

/-- Python regex `\s` at ASCII scope. -/
def isSpaceChar (c : Char) : Bool :=
  c == ' ' || c == '\t' || c == '\n' || c == '\r' || c == '\x0b' || c == '\x0c'

/-- Python `str.lower` at ASCII scope, as applied characterwise. -/
def pyLower (c : Char) : Char :=
  if 65 ≤ c.toNat ∧ c.toNat ≤ 90 then Char.ofNat (c.toNat + 32) else c

/-- Given the characters following an opening parenthesis, find the text
consumed by the non-greedy `re` match `\\(.*?\\)`: succeed at the first
`')'`, fail if a newline comes first (Python `.` does not match `\\n`).
Returns the remainder after the closing parenthesis. -/
def findClose : List Char → Option (List Char)
  | [] => none
  | c :: r => if c = ')' then some r else if c = '\n' then none else findClose r

theorem findClose_length {l r : List Char} (h : findClose l = some r) :
    r.length < l.length := by
  induction l generalizing r with
  | nil => simp [findClose] at h
  | cons c t ih =>
    rw [findClose] at h
    split at h
    · cases h; simp
    · split at h
      · cases h
      · exact Nat.lt_trans (ih h) (by simp)

/-- Python `re.sub(r'\\(.*?\\)', '', s)`: delete every leftmost,
non-overlapping parenthesised span (never spanning a newline).  The
scan is driven by a fuel counter so that it is structurally recursive;
every step consumes at least one character, so `fuel = s.length` (as
supplied by `removeParens`) never runs out. -/
def removeParensF : ℕ → List Char → List Char
  | 0, l => l
  | _ + 1, [] => []
  | fuel + 1, c :: rest =>
    if c = '(' then
      match findClose rest with
      | some rest2 => removeParensF fuel rest2
      | none => c :: removeParensF fuel rest
    else c :: removeParensF fuel rest

def removeParens (s : List Char) : List Char := removeParensF s.length s

/-- Is the head of the remaining input a word character (end of input
counts as a non-word position)? -/
def headIsWord : List Char → Bool
  | [] => false
  | c :: _ => isWordChar c

/-- Python `re.sub(rf'\\b(lit)\\b', '', s)` for a literal `lit`: scan left
to right carrying whether the previous character was a word character;
at each position, a match requires `lit` as a prefix with a word
boundary on each side (a boundary is a word/non-word transition), and
scanning resumes after the matched text.  Fuel-driven as above. -/
def subWordF (lit : List Char) : ℕ → Bool → List Char → List Char
  | 0, _, l => l
  | _ + 1, _, [] => []
  | fuel + 1, prevIsWord, c :: rest =>
    if lit.isPrefixOf (c :: rest) ∧ prevIsWord ≠ headIsWord lit ∧
        isWordChar (lit.getLastD ' ') ≠ headIsWord ((c :: rest).drop lit.length) then
      subWordF lit fuel (isWordChar (lit.getLastD ' ')) ((c :: rest).drop lit.length)
    else
      c :: subWordF lit fuel (isWordChar c) rest

/-- Total wrapper for `subWordF`, starting at the beginning of the
string (which counts as a non-word position). -/
def subWord (lit : List Char) (s : List Char) : List Char :=
  if lit = [] then s else subWordF lit s.length false s

/-- Python `re.sub(r'\\b\\d+\\s*\\w*\\b', '', s)` (measurement removal).
At a position preceded by a non-word character and holding a digit, the
regex greedily consumes the digit run, then — if a non-empty word run
follows the subsequent space run — also consumes those spaces and that
word run (otherwise backtracking leaves the match at just the digit
run).  Fuel-driven as above. -/
def remMeasF : ℕ → Bool → List Char → List Char
  | 0, _, l => l
  | _ + 1, _, [] => []
  | fuel + 1, prevIsWord, c :: rest =>
    if prevIsWord = false ∧ c.isDigit then
      if (((c :: rest).dropWhile Char.isDigit).dropWhile
          isSpaceChar).takeWhile isWordChar = [] then
        remMeasF fuel true ((c :: rest).dropWhile Char.isDigit)
      else
        remMeasF fuel true ((((c :: rest).dropWhile Char.isDigit).dropWhile
          isSpaceChar).dropWhile isWordChar)
    else c :: remMeasF fuel (isWordChar c) rest

def remMeasurements (s : List Char) : List Char := remMeasF s.length false s

/-- Python `re.sub(r'\s+', ' ', s)`: collapse each maximal whitespace
run to a single space.  The flag records whether a run is in progress. -/
def collapseAux (inRun : Bool) : List Char → List Char
  | [] => []
  | c :: rest =>
    if isSpaceChar c then
      if inRun then collapseAux true rest else ' ' :: collapseAux true rest
    else c :: collapseAux false rest

def collapseSpaces (s : List Char) : List Char := collapseAux false s

/-- Python `str.strip()` at ASCII scope. -/
def pyStrip (s : List Char) : List Char :=
  ((s.dropWhile isSpaceChar).reverse.dropWhile isSpaceChar).reverse

/-- The modifier stoplist `forms` of `extract_main_ingredient`,
verbatim in source order (`'whole'` and `'powdered'` appear twice in the
source list; the second applications are no-ops). -/
def forms : List String :=
  ["shredded", "grated", "minced", "chopped", "diced", "ground", "crushed",
   "sliced", "fresh", "frozen", "canned", "whole", "boneless", "skinless",
   "bone-in", "skin-on", "salted", "unsalted", "organic", "large", "medium",
   "small", "tinned", "smoked", "unsmoked", "lean", "hearty", "flowerets",
   "florets", "skim", "skimmed", "whole", "cooked", "roast", "roasted",
   "baked", "hot", "cold", "dried", "raw", "peeled", "seeded", "stemmed",
   "pitted", "cored", "juiced", "zested", "melted", "softened", "hardened",
   "powdered", "granulated", "crumbled", "cubed", "quartered", "halved",
   "mashed", "whipped", "beaten", "stiff", "divided", "optional", "to taste",
   "enriched", "iodized", "substitute", "wholewheat", "new", "kosher", "powdered",
   "instant", "freshly", "cracked", "curls"]

/-- Python `re.fullmatch(r'.*lit$', s)` for the `similar_map` patterns: `s` ends
with `lit` and the consumed prefix contains no newline (Python `.` does
not match `\n`; a neutral condition here, since the input was already
whitespace-collapsed). -/
def dotStarSuffix (lit s : List Char) : Bool :=
  decide (lit.length ≤ s.length) && s.drop (s.length - lit.length) == lit &&
    !((s.take (s.length - lit.length)).contains '\n')

/-- The `similar_map` suffix patterns `r'.*X$' ↦ Y` in source insertion
order.  The source dict literal lists `r'.*onion$'` twice with the same
value; a Python dict keeps one entry at the first position, so the
duplicate collapses here. -/
def similar_map : List (String × String) :=
  [("cheese", "cheese"), ("oil", "oil"), ("milk", "milk"), ("cream", "cream"),
   ("vinegar", "vinegar"), ("chocolate", "chocolate"), ("yogurt", "yogurt"),
   ("flour", "flour"), ("sugar", "sugar"), ("salt", "salt"),
   ("pepper", "pepper"), ("peppers", "pepper"), ("onion", "onion"),
   ("garlic", "garlic"), ("tomato", "tomato"), ("chicken", "chicken"),
   ("beef", "beef"), ("pork", "pork"), ("cider", "cider")]

/-- The exact-string `replacements` table in source insertion order. -/
def replacements : List (String × String) :=
  [("tomatoes", "tomato"), ("green onion", "scallion"),
   ("green onions", "scallions"), ("spring onions", "scallions"),
   ("mozzarella cheese", "mozzarella"), ("cheddar cheese", "cheddar"),
   ("feta cheese", "feta"), ("aubergine", "eggplant"),
   ("courgette", "zucchini"), ("rocket", "arugula"),
   ("coriander", "cilantro"), ("chips", "fries"), ("beetroot", "beet"),
   ("prawn", "shrimp"), ("all-purpose-flour", "flour"),
   ("all purpose flour", "flour"), ("plain flour", "flour"),
   ("corn flour", "cornstarch"), ("corn starch", "cornstarch"),
   ("broad beans", "fava beans"), ("mince beef", "ground beef"),
   ("minced beef", "ground beef"), ("mince pork", "ground pork"),
   ("minced pork", "ground pork"), ("mince chicken", "ground chicken"),
   ("minced chicken", "ground chicken"), ("tomato sauce", "ketchup"),
   ("tomato paste", "tomato"), ("tomato purée", "tomato"),
   ("whole milk", "milk"), ("semi-skimmed milk", "milk"),
   ("skimmed milk", "milk"), ("gherkin", "pickle"), ("gherkins", "pickles"),
   ("porridge oats", "oats"), ("porridge", "oats"),
   ("icing sugar", "powdered sugar"), ("confectioners sugar", "powdered sugar"),
   ("caster sugar", "sugar"), ("granulated sugar", "sugar"),
   ("brown sugar", "sugar"), ("white sugar", "sugar"),
   ("yogurt", "yoghurt"), ("yoghurt", "yoghurt"),
   ("natural yoghurt", "yoghurt"), ("vanilla extract", "vanilla"),
   ("vanilla essence", "vanilla")]

/-- The `similar_map` loop: the first pattern whose `re.fullmatch`
succeeds replaces the whole string, and iteration stops (`break`). -/
def applyPatterns (s : List Char) : List Char :=
  match similar_map.find? (fun p => dotStarSuffix p.1.data s) with
  | some p => p.2.data
  | none => s

/-- The `replacements` loop: the first key equal to the string replaces
it, and iteration stops (`break`). -/
def applyReplacements (s : List Char) : List Char :=
  match replacements.find? (fun p => p.1.data == s) with
  | some p => p.2.data
  | none => s

/-- The function `extract_main_ingredient` (main.py lines 565-673) over `List Char`:
lowercase, strip parenthesised spans, remove each stoplist form, remove
measurements, collapse and strip whitespace, then apply the suffix
patterns and the exact replacements. -/
def extract_main_ingredient (ing : List Char) : List Char :=
  applyReplacements (applyPatterns (pyStrip (collapseSpaces (remMeasurements
    (forms.foldl (fun acc f => subWord f.data acc)
      (removeParens (ing.map pyLower)))))))

/-- The canonicalizer `extract_main_ingredient` as a `String → String` canonicalizer. -/
def canonicalize (s : String) : String := String.mk (extract_main_ingredient s.data)

/-! ## Threshold estimator: `calculate_dynamic_pmi_threshold`
(main.py lines 676-686) -/

/-- Python `itertools.combinations(l, 2)`: the pairs `(l[i], l[j])` with
`i < j`, in lexicographic index order. -/
def combPairs {α : Type} : List α → List (α × α)
  | [] => []
  | x :: xs => (xs.map fun y => (x, y)) ++ combPairs xs

/-- Lexicographic comparison of character lists by code point, as
Python compares strings. -/
def lexLe : List Char → List Char → Bool
  | [], _ => true
  | _ :: _, [] => false
  | a :: as, b :: bs => if a < b then true else if b < a then false else lexLe as bs

/-- Python `a <= b` on strings. -/
def strLe (a b : String) : Bool := lexLe a.data b.data

/-- Python `tuple(sorted((a, b)))` on two strings. -/
def sortPair (a b : String) : String × String := if strLe a b then (a, b) else (b, a)

/-- Floor of a rational as `ℤ`, computed by floor division (the kernel
can evaluate this, unlike the `⌊·⌋` of the `FloorRing` instance). -/
def qfloor (q : ℚ) : ℤ := q.num.fdiv q.den

/-- Numpy `np.percentile(scores, p)` with its default linear
interpolation: sort ascending, take the virtual index
`pos = (n-1) * p/100`, and interpolate between the neighbouring order
statistics.  (Only called on non-empty score lists, as in the source;
numpy raises on an empty input.) -/
def npPercentile (scores : List ℚ) (p : ℕ) : ℚ :=
  let s := List.insertionSort (· ≤ ·) scores
  let pos : ℚ := qdivNat (qmul ((s.length - 1 : ℕ) : ℚ) ((p : ℕ) : ℚ)) 100
  let i : ℕ := (qfloor pos).toNat
  let lo := s.getD i 0
  qadd lo (qmul (qadd pos (-((i : ℕ) : ℚ))) (qadd (s.getD (i + 1) 0) (-lo)))

/-- The estimator `calculate_dynamic_pmi_threshold(pmi, ingredients)`: collect the
recorded score of every pair of `combinations(ingredients, 2)`; return
`0.0` if none, else `max(0.3, np.percentile(scores, 60))`
(`mkRat 3 10` is the kernel-reducible spelling of `0.3`). -/
def calculate_dynamic_pmi_threshold (pmi : String × String → Option ℚ)
    (ingredients : List String) : ℚ :=
  let relevant_scores := (combPairs ingredients).filterMap fun p => pmi (sortPair p.1 p.2)
  if relevant_scores = [] then 0
  else max (mkRat 3 10) (npPercentile relevant_scores 60)

/-! ## The `/compatibility/` endpoint: `get_ingredient_compatibility`
(main.py lines 689-786) -/

/-- An edge of the `networkx` subgraph: its key (a sorted pair, as
inserted by the source) and its `weight` attribute. -/
abbrev Edge := (String × String) × ℚ

/-- Semantics of `networkx.Graph.add_edge`: re-adding an existing edge overwrites
its attributes; a new edge is appended. -/
def addEdge (g : List Edge) (k : String × String) (w : ℚ) : List Edge :=
  if g.any fun e => decide (e.1 = k) then
    g.map fun e => if e.1 = k then (k, w) else e
  else g ++ [(k, w)]

/-- The subgraph-construction loop: for each pair of `pantry`, add an
edge exactly when the sorted pair has a recorded score strictly above
the threshold, weighted by that score. -/
def buildSubgraph (pantry : List String) (pmi : String × String → Option ℚ)
    (threshold : ℚ) : List Edge :=
  (combPairs pantry).foldl
    (fun g p =>
      let key := sortPair p.1 p.2
      match pmi key with
      | some w => if threshold < w then addEdge g key w else g
      | none => g)
    []

/-- The nodes of the subgraph, without duplicates (endpoints of its
edges; `add_edge` is the only way the source adds nodes). -/
def nodeList (g : List Edge) : List String :=
  ((g.map fun e => [e.1.1, e.1.2]).flatten).dedup

/-- Adjacency in the subgraph (edge keys are stored sorted). -/
def adjacentB (g : List Edge) (a b : String) : Bool :=
  g.any fun e => decide (e.1 = sortPair a b)

/-- The members of `l` form a clique of `g`: all distinct members are
adjacent. -/
def IsClique (g : List Edge) (l : List String) : Prop :=
  ∀ a ∈ l, ∀ b ∈ l, a ≠ b → adjacentB g a b = true

instance (g : List Edge) (l : List String) : Decidable (IsClique g l) := by
  unfold IsClique; infer_instance

/-- The list `l` is a maximal clique of `g`: a clique of nodes of `g` that no
further node of `g` extends to a larger clique. -/
def IsMaxClique (g : List Edge) (l : List String) : Prop :=
  (∀ a ∈ l, a ∈ nodeList g) ∧ IsClique g l ∧
    ∀ v ∈ nodeList g, v ∉ l → ¬IsClique g (v :: l)

instance (g : List Edge) (l : List String) : Decidable (IsMaxClique g l) := by
  unfold IsMaxClique; infer_instance

/-- The call `list(nx.find_cliques(subgraph))`, modelled by its contract: the
(non-empty) maximal cliques of the graph, each listed once as a
duplicate-free list of members.  (networkx yields nothing on the empty
graph, hence the non-emptiness condition, which only matters there: in
a non-empty graph `[]` is never maximal.  The enumeration order of
networkx is not reproduced; the spec leaves the order of residually
tied results unspecified.) -/
def find_cliques (g : List Edge) : List (List String) :=
  (nodeList g).sublists.filter fun s => decide (s ≠ [] ∧ IsMaxClique g s)

/-- Constant `MIN_CLIQUE_SIZE` (main.py line 695). -/
def MIN_CLIQUE_SIZE : ℕ := 2

/-- Constant `MAX_CLIQUE_SIZE` (main.py line 696). -/
def MAX_CLIQUE_SIZE : ℕ := 10

/-- A `results` entry: the dict
`(ingredients := clique, score := round(avg_score, 2), size := len(clique))`. -/
structure CliqueResult where
  ingredients : List String
  score : ℚ
  size : ℕ
deriving DecidableEq

/-- Round half to even at integer precision (Python `round`'s tie rule,
on the exact rational model of the float value). -/
def roundHalfEven (q : ℚ) : ℤ :=
  let n := qfloor q
  let f := qadd q (-((n : ℤ) : ℚ))
  if f < mkRat 1 2 then n
  else if mkRat 1 2 < f then n + 1
  else if n % 2 = 0 then n else n + 1

/-- Python `round(q, 2)` on the exact rational model. -/
def pyRound2 (q : ℚ) : ℚ :=
  qdivNat ((roundHalfEven (qmul (mkRat 100 1) q) : ℤ) : ℚ) 100

/-- The score of one clique: `total = Σ pmi.get(key, 0)` over
`combinations(clique, 2)`, `count` the number of those pairs, and
`round(total / count, 2)`. -/
def cliqueScore (pmi : String × String → Option ℚ) (clique : List String) : ℚ :=
  pyRound2 (qdivNat
    ((combPairs clique).foldl (fun t p => qadd t ((pmi (sortPair p.1 p.2)).getD 0)) 0)
    (combPairs clique).length)

/-- The body of the per-clique loop (main.py lines 763-782): skip
cliques outside `[MIN_CLIQUE_SIZE, MAX_CLIQUE_SIZE]`; skip if the pair
count is `0` (unreachable for size ≥ 2); otherwise record the dict
`(ingredients, score, size)`. -/
def mkResult (pmi : String × String → Option ℚ) (clique : List String) :
    Option CliqueResult :=
  if clique.length < MIN_CLIQUE_SIZE ∨ MAX_CLIQUE_SIZE < clique.length then none
  else if (combPairs clique).length = 0 then none
  else some ⟨clique, cliqueScore pmi clique, clique.length⟩

/-- The `results` list before sorting. -/
def cliqueResults (pmi : String × String → Option ℚ)
    (cliques : List (List String)) : List CliqueResult :=
  cliques.filterMap (mkResult pmi)

/-- The ranking order `sort(key = fun x => (-x.score, -x.size))`:
`x` may precede `y` when `x.score > y.score`, or scores tie and
`x.size ≥ y.size`. -/
def rankLE (x y : CliqueResult) : Prop :=
  y.score < x.score ∨ (x.score = y.score ∧ y.size ≤ x.size)

instance : DecidableRel rankLE := fun x y => by unfold rankLE; infer_instance

instance : IsTotal CliqueResult rankLE where
  total x y := by
    unfold rankLE
    rcases lt_trichotomy x.score y.score with h | h | h
    · exact Or.inr (Or.inl h)
    · rcases Nat.le_total y.size x.size with hs | hs
      · exact Or.inl (Or.inr ⟨h, hs⟩)
      · exact Or.inr (Or.inr ⟨h.symm, hs⟩)
    · exact Or.inl (Or.inl h)

instance : IsTrans CliqueResult rankLE where
  trans x y z hxy hyz := by
    unfold rankLE at *
    rcases hxy with h1 | ⟨h1, h1s⟩ <;> rcases hyz with h2 | ⟨h2, h2s⟩
    · exact Or.inl (h2.trans h1)
    · exact Or.inl (h2 ▸ h1)
    · exact Or.inl (h1 ▸ h2)
    · exact Or.inr ⟨h1.trans h2, h2s.trans h1s⟩

/-- The call `results.sort(...)`: Python's sort is stable; modelled by stable
insertion sort with the ranking order. -/
def sortResults (l : List CliqueResult) : List CliqueResult :=
  l.insertionSort rankLE

/-- The canonicalized pantry restricted to the vocabulary:
`[ing for ing in map(extract_main_ingredient, raw) if ing in G_full]`.
No deduplication is performed by the source. -/
def pantryOf (vocab : List String) (raw : List String) : List String :=
  (raw.map canonicalize).filter fun i => vocab.contains i

def thresholdOf (pmi : String × String → Option ℚ) (vocab raw : List String) : ℚ :=
  calculate_dynamic_pmi_threshold pmi (pantryOf vocab raw)

def subgraphOf (pmi : String × String → Option ℚ) (vocab raw : List String) : List Edge :=
  buildSubgraph (pantryOf vocab raw) pmi (thresholdOf pmi vocab raw)

/-- The full successful computation of the endpoint: canonicalize,
filter to the vocabulary, estimate the threshold, build the subgraph,
enumerate and score cliques, and rank. -/
def resultsOf (pmi : String × String → Option ℚ) (vocab raw : List String) :
    List CliqueResult :=
  sortResults (cliqueResults pmi (find_cliques (subgraphOf pmi vocab raw)))

/-- Outcome of loading `compatibility_graph_new.pkl`: the artifact
either yields a pmi table and a vocabulary graph, is missing
(`FileNotFoundError`), or cannot be deserialized (any other exception
of the loading block). -/
inductive ArtifactLoad
  | ok (pmi : String × String → Option ℚ) (vocab : List String)
  | missing
  | corrupt

/-- The two error responses of the endpoint's artifact-loading block:
`DataUnavailable` (HTTP 503) and `DataCorrupt` (HTTP 500). -/
inductive ApiError
  | dataUnavailable
  | dataCorrupt
deriving DecidableEq

/-- The HTTP status attached to each error. -/
def ApiError.statusCode : ApiError → ℕ
  | .dataUnavailable => 503
  | .dataCorrupt => 500

/-- The endpoint `get_ingredient_compatibility` after authentication: artifact
loading is the only branch that can fail; on success the endpoint
returns the ranked results. -/
def get_ingredient_compatibility (artifact : ArtifactLoad)
    (ingredient_list : List String) : Except ApiError (List CliqueResult) :=
  match artifact with
  | .missing => .error .dataUnavailable
  | .corrupt => .error .dataCorrupt
  | .ok pmi vocab => .ok (resultsOf pmi vocab ingredient_list)

def pmiDemo : String × String → Option ℚ := fun k =>
  if k = ("a", "c") then some (mkRat 2 5)
  else if k = ("a", "d") then some (mkRat 2 5)
  else if k = ("a", "e") then some (mkRat 2 5)
  else if k = ("c", "d") then some (mkRat 3 5)
  else if k = ("c", "e") then some 1
  else if k = ("d", "e") then some (mkRat 9 20)
  else none

def vocabDemo : List String := ["a", "c", "d", "e"]

/-! ## Claim C1: the three canonicalizer examples -/

/-- C1, counterexample: the claim asserts
`canonicalize("Shredded Cheddar Cheese") == "cheddar"`, but the code
returns `"cheese"`: after the stoplist removes `shredded`, the suffix
pattern `r'.*cheese$'` fires before the exact-replacement table (which
alone would map `"cheddar cheese"` to `"cheddar"`) is ever consulted. -/
theorem C1_cheddar_counterexample :
    canonicalize "Shredded Cheddar Cheese" ≠ "cheddar" := by decide

/-- C1, amended: the canonicalizer maps
`"Shredded Cheddar Cheese"` to `"cheese"` (not `"cheddar"`: the pattern
rules run first), `"2 cups plain flour"` to `"flour"`, and
`"Tomatoes (diced)"` to `"tomato"`. -/
theorem C1_canonicalize_examples :
    canonicalize "Shredded Cheddar Cheese" = "cheese" ∧
    canonicalize "2 cups plain flour" = "flour" ∧
    canonicalize "Tomatoes (diced)" = "tomato" :=
  ⟨by decide, by decide, by decide⟩

/-! ## Claim C9: idempotence of canonicalization -/

/-- C9, counterexample: canonicalization is not idempotent on every
input string.  On `"(\n)"` the paren-stripping regex `\(.*?\)` fails
(`.` does not match a newline), whitespace collapsing then turns the
newline into a space, and the output `"( )"` is canonicalized to `""`
by a second pass. -/
theorem C9_not_idempotent_counterexample :
    canonicalize (canonicalize "(\n)") ≠ canonicalize "(\n)" := by decide

/-- C9, amended: canonicalization is idempotent on the spec's tested
inputs (its §8 examples), though not on every input string. -/
theorem C9_idempotent_on_tested_inputs :
    canonicalize (canonicalize "Shredded Cheddar Cheese") =
      canonicalize "Shredded Cheddar Cheese" ∧
    canonicalize (canonicalize "2 cups plain flour") =
      canonicalize "2 cups plain flour" ∧
    canonicalize (canonicalize "Tomatoes (diced)") =
      canonicalize "Tomatoes (diced)" :=
  ⟨by decide, by decide, by decide⟩

/-! ## Claim C2: the threshold estimator -/

/-- C2: for every affinity table and collection of present tokens, the
threshold is exactly `0` when no pair of `combinations(tokens, 2)` has
a recorded score, and otherwise equals
`max(0.3, 60th percentile of the collected scores)`
(`mkRat 3 10 = 0.3`). -/
theorem C2_threshold_spec (pmi : String × String → Option ℚ)
    (ingredients : List String) :
    ((∀ p ∈ combPairs ingredients, pmi (sortPair p.1 p.2) = none) →
      calculate_dynamic_pmi_threshold pmi ingredients = 0) ∧
    ((∃ p ∈ combPairs ingredients, (pmi (sortPair p.1 p.2)).isSome) →
      calculate_dynamic_pmi_threshold pmi ingredients =
        max (mkRat 3 10)
          (npPercentile
            ((combPairs ingredients).filterMap fun p => pmi (sortPair p.1 p.2))
            60)) := by
  constructor
  · intro h
    unfold calculate_dynamic_pmi_threshold
    rw [if_pos (List.filterMap_eq_nil_iff.mpr h)]
  · rintro ⟨p, hp, hsome⟩
    unfold calculate_dynamic_pmi_threshold
    rw [if_neg]
    intro hnil
    rw [List.filterMap_eq_nil_iff.mp hnil p hp] at hsome
    exact Bool.noConfusion hsome

/-- C2, witness at concrete inputs: `pmiDemo` records no pair of
`["a", "x"]`, and the pairs of `["a", "c", "d"]` have the scores
`[0.4, 0.4, 0.6]`. -/
theorem C2_threshold_spec_witness :
    calculate_dynamic_pmi_threshold pmiDemo ["a", "x"] = 0 ∧
    calculate_dynamic_pmi_threshold pmiDemo ["a", "c", "d"] =
      max (mkRat 3 10)
        (npPercentile
          ((combPairs ["a", "c", "d"]).filterMap fun p => pmiDemo (sortPair p.1 p.2))
          60) :=
  ⟨(C2_threshold_spec pmiDemo ["a", "x"]).1 (by decide),
   (C2_threshold_spec pmiDemo ["a", "c", "d"]).2 ⟨("a", "c"), by decide, by decide⟩⟩

/-! ## Claim C7: error handling of the pipeline -/

/-- C7: a missing artifact yields `DataUnavailable` (surfaced as HTTP
503, service unavailable), a present-but-undeserializable artifact
yields `DataCorrupt` (HTTP 500, internal error), and on a loaded
artifact the pipeline always returns a result — artifact loading is
the only failure mode after authentication. -/
theorem C7_artifact_errors (ing : List String) :
    get_ingredient_compatibility .missing ing = .error .dataUnavailable ∧
    ApiError.dataUnavailable.statusCode = 503 ∧
    get_ingredient_compatibility .corrupt ing = .error .dataCorrupt ∧
    ApiError.dataCorrupt.statusCode = 500 ∧
    ∀ pmi vocab, ∃ r, get_ingredient_compatibility (.ok pmi vocab) ing = .ok r :=
  ⟨rfl, rfl, rfl, rfl, fun _ _ => ⟨_, rfl⟩⟩

/-! ## Claim C8: duplicate canonical tokens -/

instance {ε α : Type} [DecidableEq ε] [DecidableEq α] : DecidableEq (Except ε α)
  | .ok a, .ok b =>
    if h : a = b then .isTrue (h ▸ rfl) else .isFalse fun hc => h (by injection hc)
  | .error a, .error b =>
    if h : a = b then .isTrue (h ▸ rfl) else .isFalse fun hc => h (by injection hc)
  | .ok _, .error _ => .isFalse fun hc => Except.noConfusion hc
  | .error _, .ok _ => .isFalse fun hc => Except.noConfusion hc

/-- C8, counterexample: the pipeline does not deduplicate before the
percentile computation, so a pantry with a duplicated token can produce
a different threshold and a different ranked clique list than the
deduplicated pantry.  With `pmiDemo`, the pantry
`["a", "a", "c", "d", "e"]` yields threshold `0.4` and one clique,
while `["a", "c", "d", "e"]` yields threshold `0.45` and two cliques. -/
theorem C8_duplicates_counterexample :
    thresholdOf pmiDemo vocabDemo ["a", "a", "c", "d", "e"] ≠
      thresholdOf pmiDemo vocabDemo ["a", "c", "d", "e"] ∧
    (resultsOf pmiDemo vocabDemo ["a", "a", "c", "d", "e"]).length = 1 ∧
    (resultsOf pmiDemo vocabDemo ["a", "c", "d", "e"]).length = 2 ∧
    get_ingredient_compatibility (.ok pmiDemo vocabDemo) ["a", "a", "c", "d", "e"] ≠
      get_ingredient_compatibility (.ok pmiDemo vocabDemo) ["a", "c", "d", "e"] :=
  ⟨by decide, by decide, by decide, by decide⟩

/-- C8, amended: the threshold estimator operates on the token list
with multiplicity (it never deduplicates), so duplicated tokens may
change the threshold, the subgraph and the ranked clique list; the
pipeline still never crashes on a pantry with duplicate canonical
tokens. -/
theorem C8_duplicates_never_crash (pmi : String × String → Option ℚ)
    (vocab raw : List String) (hdup : ¬(raw.map canonicalize).Nodup) :
    ∃ r, get_ingredient_compatibility (.ok pmi vocab) raw = .ok r :=
  ⟨_, rfl⟩

/-- C8, witness: the amended no-crash theorem applied to the duplicated
demo pantry. -/
theorem C8_duplicates_never_crash_witness :
    ∃ r, get_ingredient_compatibility (.ok pmiDemo vocabDemo)
      ["a", "a", "c", "d", "e"] = .ok r :=
  C8_duplicates_never_crash pmiDemo vocabDemo ["a", "a", "c", "d", "e"] (by decide)

/-! ## Claim C3: subgraph edges are scored above the threshold -/

theorem mem_addEdge {g : List Edge} {k : String × String} {w : ℚ} {e : Edge}
    (h : e ∈ addEdge g k w) : e ∈ g ∨ e = (k, w) := by
  unfold addEdge at h
  split at h
  · rcases List.mem_map.mp h with ⟨x, hx, hxe⟩
    by_cases hk : x.1 = k
    · rw [if_pos hk] at hxe
      exact Or.inr hxe.symm
    · rw [if_neg hk] at hxe
      exact Or.inl (hxe ▸ hx)
  · rcases List.mem_append.mp h with h1 | h1
    · exact Or.inl h1
    · exact Or.inr (List.mem_singleton.mp h1)

theorem foldl_preserve {α β : Type} (P : β → Prop) (step : List β → α → List β)
    (hstep : ∀ g p, (∀ e ∈ g, P e) → ∀ e ∈ step g p, P e) :
    ∀ (pairs : List α) (g0 : List β), (∀ e ∈ g0, P e) →
      ∀ e ∈ pairs.foldl step g0, P e
  | [], _, h0 => h0
  | p :: ps, g0, h0 =>
    foldl_preserve P step hstep ps (step g0 p) (hstep g0 p h0)

/-- C3: every edge of the built compatibility subgraph carries a
recorded affinity score as its weight, and that score is strictly
greater than the computed threshold; hence no unrecorded pair and no
pair at or below the threshold ever yields an edge. -/
theorem C3_subgraph_edges (pmi : String × String → Option ℚ)
    (vocab raw : List String) :
    ∀ e ∈ subgraphOf pmi vocab raw,
      pmi e.1 = some e.2 ∧ thresholdOf pmi vocab raw < e.2 := by
  refine foldl_preserve _ _ ?_ (combPairs (pantryOf vocab raw)) [] (by simp)
  intro g p hg e he
  dsimp only at he
  rcases hpmi : pmi (sortPair p.1 p.2) with _ | w
  · rw [hpmi] at he
    exact hg e he
  · rw [hpmi] at he
    dsimp only at he
    by_cases hw : thresholdOf pmi vocab raw < w
    · rw [if_pos hw] at he
      rcases mem_addEdge he with h1 | h1
      · exact hg e h1
      · subst h1
        exact ⟨hpmi, hw⟩
    · rw [if_neg hw] at he
      exact hg e he

/-- C3, witness: in the demo pipeline the edge `(("c", "d"), 0.6)` is
in the subgraph, its score is recorded, and it exceeds the threshold
`0.45`. -/
theorem C3_subgraph_edges_witness :
    pmiDemo ("c", "d") = some (mkRat 3 5) ∧
    thresholdOf pmiDemo vocabDemo ["a", "c", "d", "e"] < mkRat 3 5 :=
  C3_subgraph_edges pmiDemo vocabDemo ["a", "c", "d", "e"]
    (("c", "d"), mkRat 3 5) (by decide)

/-! ## Claim C6: the returned sequence is ranked -/

/-- C6: the returned clique list is sorted by the key
`(-score, -size)`: whenever `x` appears before `y`, either
`x.score > y.score`, or the scores tie and `x.size ≥ y.size`. -/
theorem C6_results_ranked (pmi : String × String → Option ℚ)
    (vocab raw : List String) :
    (resultsOf pmi vocab raw).Pairwise
      (fun x y => y.score < x.score ∨ (x.score = y.score ∧ y.size ≤ x.size)) :=
  List.sorted_insertionSort rankLE
    (cliqueResults pmi (find_cliques (subgraphOf pmi vocab raw)))

/-! ## Claim C4: the returned cliques are exactly the size-bounded
maximal cliques of the subgraph -/

theorem nodeList_nodup (g : List Edge) : (nodeList g).Nodup :=
  List.nodup_dedup _

/-- The member set `s` is a clique of `g`. -/
def CliqueSet (g : List Edge) (s : Finset String) : Prop :=
  ∀ a ∈ s, ∀ b ∈ s, a ≠ b → adjacentB g a b = true

instance (g : List Edge) (s : Finset String) : Decidable (CliqueSet g s) := by
  unfold CliqueSet; infer_instance

/-- The member set `s` is a maximal clique of `g`: a clique of graph
nodes that no further graph node extends to a larger clique. -/
def MaxCliqueSet (g : List Edge) (s : Finset String) : Prop :=
  (∀ a ∈ s, a ∈ nodeList g) ∧ CliqueSet g s ∧
    ∀ v ∈ nodeList g, v ∉ s → ¬CliqueSet g (insert v s)

instance (g : List Edge) (s : Finset String) : Decidable (MaxCliqueSet g s) := by
  unfold MaxCliqueSet; infer_instance

theorem cliqueSet_toFinset (g : List Edge) (l : List String) :
    CliqueSet g l.toFinset ↔ IsClique g l := by
  simp [CliqueSet, IsClique, List.mem_toFinset]

theorem maxCliqueSet_toFinset (g : List Edge) (l : List String) :
    MaxCliqueSet g l.toFinset ↔ IsMaxClique g l := by
  unfold MaxCliqueSet IsMaxClique
  rw [cliqueSet_toFinset]
  constructor
  · rintro ⟨h1, h2, h3⟩
    refine ⟨fun a ha => h1 a (List.mem_toFinset.mpr ha), h2, ?_⟩
    intro v hv hvl hcl
    exact h3 v hv (fun hvs => hvl (List.mem_toFinset.mp hvs))
      (by rw [← List.toFinset_cons, cliqueSet_toFinset]; exact hcl)
  · rintro ⟨h1, h2, h3⟩
    refine ⟨fun a ha => h1 a (List.mem_toFinset.mp ha), h2, ?_⟩
    intro v hv hvs hcl
    refine h3 v hv (fun hvl => hvs (List.mem_toFinset.mpr hvl)) ?_
    rw [← cliqueSet_toFinset, List.toFinset_cons]
    exact hcl

theorem combPairs_ne_nil {α : Type} {l : List α} (h : 2 ≤ l.length) :
    combPairs l ≠ [] := by
  match l, h with
  | a :: b :: t, _ => simp [combPairs]

theorem mkResult_eq_some {pmi : String × String → Option ℚ}
    {l : List String} {r : CliqueResult} :
    mkResult pmi l = some r ↔
      2 ≤ l.length ∧ l.length ≤ 10 ∧ r = ⟨l, cliqueScore pmi l, l.length⟩ := by
  unfold mkResult
  constructor
  · intro h
    by_cases h1 : l.length < MIN_CLIQUE_SIZE ∨ MAX_CLIQUE_SIZE < l.length
    · rw [if_pos h1] at h
      cases h
    · rw [if_neg h1] at h
      by_cases h2 : (combPairs l).length = 0
      · rw [if_pos h2] at h
        cases h
      · rw [if_neg h2] at h
        unfold MIN_CLIQUE_SIZE MAX_CLIQUE_SIZE at h1
        push_neg at h1
        exact ⟨h1.1, h1.2, (Option.some_inj.mp h).symm⟩
  · rintro ⟨h1, h2, rfl⟩
    rw [if_neg (by unfold MIN_CLIQUE_SIZE MAX_CLIQUE_SIZE; omega),
      if_neg fun hc => combPairs_ne_nil h1 (List.length_eq_zero.mp hc)]

theorem mem_find_cliques {g : List Edge} {l : List String} :
    l ∈ find_cliques g ↔ l.Sublist (nodeList g) ∧ l ≠ [] ∧ IsMaxClique g l := by
  unfold find_cliques
  rw [List.mem_filter, List.mem_sublists]
  constructor
  · rintro ⟨hs, hd⟩
    have hd' := of_decide_eq_true hd
    exact ⟨hs, hd'.1, hd'.2⟩
  · rintro ⟨hs, h1, h2⟩
    exact ⟨hs, decide_eq_true ⟨h1, h2⟩⟩

/-- Membership in the final ranked list, unfolded down to one clique of
`find_cliques`. -/
theorem mem_resultsOf {pmi : String × String → Option ℚ}
    {vocab raw : List String} {r : CliqueResult} :
    r ∈ resultsOf pmi vocab raw ↔
      ∃ l, l.Sublist (nodeList (subgraphOf pmi vocab raw)) ∧ l ≠ [] ∧
        IsMaxClique (subgraphOf pmi vocab raw) l ∧
        2 ≤ l.length ∧ l.length ≤ 10 ∧
        r = ⟨l, cliqueScore pmi l, l.length⟩ := by
  simp only [resultsOf, sortResults]
  rw [(List.perm_insertionSort rankLE _).mem_iff]
  unfold cliqueResults
  rw [List.mem_filterMap]
  constructor
  · rintro ⟨l, hl, hmk⟩
    rcases mem_find_cliques.mp hl with ⟨hs, hne, hmax⟩
    rcases mkResult_eq_some.mp hmk with ⟨h2, h10, rfl⟩
    exact ⟨l, hs, hne, hmax, h2, h10, rfl⟩
  · rintro ⟨l, hs, hne, hmax, h2, h10, rfl⟩
    exact ⟨l, mem_find_cliques.mpr ⟨hs, hne, hmax⟩,
      mkResult_eq_some.mpr ⟨h2, h10, rfl⟩⟩

/-- C4: a member set `s` is carried by some returned clique iff `s` is
a maximal clique of the compatibility subgraph and its member count
lies in the inclusive range `[2, 10]` — no maximal clique in range is
omitted, nothing else (in particular no non-maximal clique) is
returned. -/
theorem C4_max_cliques (pmi : String × String → Option ℚ)
    (vocab raw : List String) (s : Finset String) :
    (∃ r ∈ resultsOf pmi vocab raw, r.ingredients.toFinset = s) ↔
      MaxCliqueSet (subgraphOf pmi vocab raw) s ∧ 2 ≤ s.card ∧ s.card ≤ 10 := by
  constructor
  · rintro ⟨r, hr, rfl⟩
    rcases mem_resultsOf.mp hr with ⟨l, hs, hne, hmax, h2, h10, rfl⟩
    have hnodup : l.Nodup := List.Nodup.sublist hs (nodeList_nodup _)
    rw [maxCliqueSet_toFinset, List.toFinset_card_of_nodup hnodup]
    exact ⟨hmax, h2, h10⟩
  · rintro ⟨hmax, h2, h10⟩
    have hl : ((nodeList (subgraphOf pmi vocab raw)).filter
        (fun a => decide (a ∈ s))).toFinset = s := by
      ext a
      simp only [List.mem_toFinset, List.mem_filter, decide_eq_true_eq]
      exact ⟨fun h => h.2, fun h => ⟨hmax.1 a h, h⟩⟩
    set l := (nodeList (subgraphOf pmi vocab raw)).filter
      (fun a => decide (a ∈ s)) with hldef
    have hsubl : l.Sublist (nodeList (subgraphOf pmi vocab raw)) :=
      List.filter_sublist _
    have hnodup : l.Nodup := List.Nodup.sublist hsubl (nodeList_nodup _)
    have hmaxl : IsMaxClique (subgraphOf pmi vocab raw) l :=
      (maxCliqueSet_toFinset _ l).mp (hl.symm ▸ hmax)
    have hcard : l.length = s.card := by
      rw [← List.toFinset_card_of_nodup hnodup, hl]
    have hlen2 : 2 ≤ l.length := hcard ▸ h2
    have hne : l ≠ [] := by
      intro h
      rw [h] at hlen2
      simp at hlen2
    exact ⟨⟨l, cliqueScore pmi l, l.length⟩,
      mem_resultsOf.mpr ⟨l, hsubl, hne, hmaxl, hlen2, hcard ▸ h10, rfl⟩, hl⟩

/-- C4, witness: in the demo pipeline the member set `{c, e}` is a
returned clique (it is maximal of size 2). -/
theorem C4_max_cliques_witness :
    ∃ r ∈ resultsOf pmiDemo vocabDemo ["a", "c", "d", "e"],
      r.ingredients.toFinset = ({"c", "e"} : Finset String) :=
  (C4_max_cliques pmiDemo vocabDemo ["a", "c", "d", "e"] {"c", "e"}).mpr
    ⟨by decide, by decide, by decide⟩

/-! ## Claim C5: clique scores are rounded means of raw table scores -/

theorem foldl_qadd_eq_sum {α : Type} (f : α → ℚ) (init : ℚ) (l : List α) :
    l.foldl (fun t p => qadd t (f p)) init = init + (l.map f).sum := by
  induction l generalizing init with
  | nil => simp
  | cons x xs ih =>
    rw [List.foldl_cons, ih, List.map_cons, List.sum_cons, qadd_eq]
    ring

theorem lexLe_total (as bs : List Char) : lexLe as bs = true ∨ lexLe bs as = true := by
  induction as generalizing bs with
  | nil => left; rfl
  | cons a at' ih =>
    cases bs with
    | nil => right; rfl
    | cons b bt =>
      by_cases h1 : a < b
      · left
        simp [lexLe, h1]
      · by_cases h2 : b < a
        · right
          simp [lexLe, h2]
        · have hab : a = b := le_antisymm (not_lt.mp h2) (not_lt.mp h1)
          subst hab
          rcases ih bt with h | h
          · left
            simpa [lexLe, lt_irrefl] using h
          · right
            simpa [lexLe, lt_irrefl] using h

theorem lexLe_antisymm {as bs : List Char} (h1 : lexLe as bs = true)
    (h2 : lexLe bs as = true) : as = bs := by
  induction as generalizing bs with
  | nil =>
    cases bs with
    | nil => rfl
    | cons b bt => exact absurd h2 (by simp [lexLe])
  | cons a at' ih =>
    cases bs with
    | nil => exact absurd h1 (by simp [lexLe])
    | cons b bt =>
      by_cases hab : a < b
      · simp only [lexLe, if_neg (asymm hab), if_pos hab] at h2
        exact Bool.noConfusion h2
      · by_cases hba : b < a
        · simp only [lexLe, if_neg hab, if_pos hba] at h1
          exact Bool.noConfusion h1
        · have heq : a = b := le_antisymm (not_lt.mp hba) (not_lt.mp hab)
          subst heq
          simp only [lexLe, if_neg (lt_irrefl a)] at h1 h2
          rw [ih h1 h2]

theorem strLe_total (a b : String) : strLe a b = true ∨ strLe b a = true :=
  lexLe_total a.data b.data

theorem strLe_antisymm {a b : String} (h1 : strLe a b = true)
    (h2 : strLe b a = true) : a = b :=
  String.ext (lexLe_antisymm h1 h2)

theorem sortPair_comm (a b : String) : sortPair a b = sortPair b a := by
  unfold sortPair
  by_cases h1 : strLe a b = true
  · by_cases h2 : strLe b a = true
    · rw [if_pos h1, if_pos h2, strLe_antisymm h1 h2]
    · rw [if_pos h1, if_neg h2]
  · rcases strLe_total a b with h | h
    · exact absurd h h1
    · rw [if_neg h1, if_pos h]

theorem combPairs_length_sq {α : Type} :
    ∀ l : List α, (combPairs l).length * 2 + l.length = l.length * l.length
  | [] => rfl
  | x :: xs => by
    have ih := combPairs_length_sq xs
    simp only [combPairs, List.length_append, List.length_map, List.length_cons]
    nlinarith [ih]

/-- Summing a symmetric pair function over `combinations(l, 2)` (each
unordered pair once) is half the sum over the ordered distinct pairs
`l.toFinset.offDiag`. -/
theorem combPairs_sum_offDiag (f : String → String → ℚ)
    (hsym : ∀ a b, f a b = f b a) :
    ∀ l : List String, l.Nodup →
      2 * ((combPairs l).map fun p => f p.1 p.2).sum =
        ∑ x ∈ l.toFinset.offDiag, f x.1 x.2 := by
  intro l
  induction l with
  | nil => simp [combPairs]
  | cons x xs ih =>
    intro hnd
    have hx : x ∉ xs := (List.nodup_cons.mp hnd).1
    have hxs : xs.Nodup := (List.nodup_cons.mp hnd).2
    have hxf : x ∉ xs.toFinset := fun h => hx (List.mem_toFinset.mp h)
    have hd1 : Disjoint (xs.toFinset.offDiag ∪ {x} ×ˢ xs.toFinset)
        (xs.toFinset ×ˢ {x}) := by
      rw [Finset.disjoint_right]
      rintro ⟨p, q⟩ hq hp
      simp only [Finset.mem_product, Finset.mem_singleton] at hq
      rcases Finset.mem_union.mp hp with hp | hp
      · simp only [Finset.mem_offDiag] at hp
        exact hxf (hq.2 ▸ hp.2.1)
      · simp only [Finset.mem_product, Finset.mem_singleton] at hp
        exact hxf (hp.1 ▸ hq.1)
    have hd2 : Disjoint xs.toFinset.offDiag ({x} ×ˢ xs.toFinset) := by
      rw [Finset.disjoint_right]
      rintro ⟨p, q⟩ hq hp
      simp only [Finset.mem_product, Finset.mem_singleton] at hq
      simp only [Finset.mem_offDiag] at hp
      exact hxf (hq.1 ▸ hp.1)
    have hrow : ∀ s : Finset String, ∑ y ∈ ({x} ×ˢ s), f y.1 y.2 =
        ∑ y ∈ s, f x y := by
      intro s
      rw [Finset.sum_product, Finset.sum_singleton]
    have hcol : ∑ y ∈ (xs.toFinset ×ˢ {x}), f y.1 y.2 =
        ∑ y ∈ xs.toFinset, f x y := by
      rw [Finset.sum_product]
      simp only [Finset.sum_singleton]
      exact Finset.sum_congr rfl fun y _ => hsym y x
    have hlist : ((xs.map fun y => (x, y)).map fun p => f p.1 p.2).sum =
        ∑ y ∈ xs.toFinset, f x y := by
      rw [List.map_map, List.sum_toFinset _ hxs]
      rfl
    rw [combPairs, List.map_append, List.sum_append, List.toFinset_cons,
      Finset.offDiag_insert x hxf, Finset.sum_union hd1, Finset.sum_union hd2,
      hrow, hcol, hlist, ← ih hxs]
    ring

/-- C5: every returned clique's score is the arithmetic mean, over the
unordered pairs of its members, of the raw affinity-table score (a
missing pair contributing `0`), rounded to two decimal places.  The
mean is stated over the ordered distinct pairs `offDiag` of the member
set; since the summand is symmetric this equals the unordered-pair
mean, and it is computed from the raw table, not from subgraph edge
weights. -/
theorem C5_clique_scores (pmi : String × String → Option ℚ)
    (vocab raw : List String) :
    ∀ r ∈ resultsOf pmi vocab raw,
      r.score = pyRound2
        ((∑ x ∈ r.ingredients.toFinset.offDiag, ((pmi (sortPair x.1 x.2)).getD 0)) /
          (r.ingredients.toFinset.offDiag.card : ℚ)) := by
  intro r hr
  rcases mem_resultsOf.mp hr with ⟨l, hs, hne, hmax, h2, h10, rfl⟩
  have hnodup : l.Nodup := List.Nodup.sublist hs (nodeList_nodup _)
  show cliqueScore pmi l = _
  unfold cliqueScore
  congr 1
  rw [qdivNat_eq, foldl_qadd_eq_sum, zero_add]
  have hsum : 2 * ((combPairs l).map fun p => (pmi (sortPair p.1 p.2)).getD 0).sum
      = ∑ x ∈ l.toFinset.offDiag, (pmi (sortPair x.1 x.2)).getD 0 :=
    combPairs_sum_offDiag (fun a b => (pmi (sortPair a b)).getD 0)
      (fun a b => by
        show (pmi (sortPair a b)).getD 0 = (pmi (sortPair b a)).getD 0
        rw [sortPair_comm]) l hnodup
  have hsq := combPairs_length_sq l
  have hcount : l.toFinset.offDiag.card = 2 * (combPairs l).length := by
    rw [Finset.offDiag_card, List.toFinset_card_of_nodup hnodup]
    omega
  rw [hcount, ← hsum]
  push_cast
  exact (mul_div_mul_left _ _ two_ne_zero).symm

/-- C5, witness: the returned clique `{c, e}` of the demo pipeline has
score `1`, the rounded mean of its single pair score. -/
theorem C5_clique_scores_witness :
    (⟨["c", "e"], 1, 2⟩ : CliqueResult).score = pyRound2
      ((∑ x ∈ (⟨["c", "e"], 1, 2⟩ :
          CliqueResult).ingredients.toFinset.offDiag,
        ((pmiDemo (sortPair x.1 x.2)).getD 0)) /
        ((⟨["c", "e"], 1, 2⟩ :
          CliqueResult).ingredients.toFinset.offDiag.card : ℚ)) :=
  C5_clique_scores pmiDemo vocabDemo ["a", "c", "d", "e"]
    ⟨["c", "e"], 1, 2⟩ (by decide)

/-! ## Claim C10: the canonicalizer's output is normalization-invariant -/

theorem toNat_ofNat_add32 {n : ℕ} (h1 : 65 ≤ n) (h2 : n ≤ 90) :
    (Char.ofNat (n + 32)).toNat = n + 32 := by
  interval_cases n <;> decide

theorem pyLower_idem (c : Char) : pyLower (pyLower c) = pyLower c := by
  unfold pyLower
  by_cases h : 65 ≤ c.toNat ∧ c.toNat ≤ 90
  · have ht := toNat_ofNat_add32 h.1 h.2
    rw [if_pos h, if_neg (by rw [ht]; omega)]
  · rw [if_neg h, if_neg h]

theorem findClose_suffix {l r : List Char} (h : findClose l = some r) : r <:+ l := by
  induction l generalizing r with
  | nil => simp [findClose] at h
  | cons c t ih =>
    rw [findClose] at h
    split at h
    · cases h
      exact ⟨[c], rfl⟩
    · split at h
      · cases h
      · rcases ih h with ⟨pre, hpre⟩
        exact ⟨c :: pre, by rw [← hpre]; rfl⟩

theorem removeParensF_sublist (fuel : ℕ) :
    ∀ l : List Char, (removeParensF fuel l).Sublist l := by
  induction fuel with
  | zero => exact fun l => List.Sublist.refl l
  | succ n ih =>
    intro l
    cases l with
    | nil => exact List.Sublist.refl _
    | cons c rest =>
      rw [removeParensF]
      split
      · split
        · rename_i rest2 hfc
          exact ((ih rest2).trans (findClose_suffix hfc).sublist).trans
            (List.sublist_cons_self c rest)
        · exact List.Sublist.cons₂ c (ih rest)
      · exact List.Sublist.cons₂ c (ih rest)

theorem subWordF_sublist (lit : List Char) (fuel : ℕ) :
    ∀ (b : Bool) (l : List Char), (subWordF lit fuel b l).Sublist l := by
  induction fuel with
  | zero => exact fun b l => List.Sublist.refl l
  | succ n ih =>
    intro b l
    cases l with
    | nil => exact List.Sublist.refl _
    | cons c rest =>
      rw [subWordF]
      split
      · exact (ih _ _).trans (List.drop_sublist _ _)
      · exact List.Sublist.cons₂ c (ih _ rest)

theorem subWord_sublist (lit s : List Char) : (subWord lit s).Sublist s := by
  unfold subWord
  split
  · exact List.Sublist.refl s
  · exact subWordF_sublist lit s.length false s

theorem foldl_subWord_sublist :
    ∀ (fs : List String) (s : List Char),
      (fs.foldl (fun acc f => subWord f.data acc) s).Sublist s
  | [], s => List.Sublist.refl s
  | f :: ft, s =>
    (foldl_subWord_sublist ft (subWord f.data s)).trans (subWord_sublist f.data s)

theorem remMeasF_sublist (fuel : ℕ) :
    ∀ (b : Bool) (l : List Char), (remMeasF fuel b l).Sublist l := by
  induction fuel with
  | zero => exact fun b l => List.Sublist.refl l
  | succ n ih =>
    intro b l
    cases l with
    | nil => exact List.Sublist.refl _
    | cons c rest =>
      rw [remMeasF]
      split
      · split
        · exact (ih _ _).trans (List.dropWhile_sublist _)
        · exact (ih _ _).trans (((List.dropWhile_sublist _).trans
            (List.dropWhile_sublist _)).trans (List.dropWhile_sublist _))
      · exact List.Sublist.cons₂ c (ih _ rest)

theorem collapseAux_mem {l : List Char} :
    ∀ {b : Bool} {c : Char}, c ∈ collapseAux b l → c ∈ l ∨ c = ' ' := by
  induction l with
  | nil => intro b c h; cases h
  | cons d rest ih =>
    intro b c h
    rw [collapseAux] at h
    split at h
    · split at h
      · rcases ih h with h1 | h1
        · exact Or.inl (List.mem_cons_of_mem d h1)
        · exact Or.inr h1
      · rcases List.mem_cons.mp h with h1 | h1
        · exact Or.inr h1
        · rcases ih h1 with h2 | h2
          · exact Or.inl (List.mem_cons_of_mem d h2)
          · exact Or.inr h2
    · rcases List.mem_cons.mp h with h1 | h1
      · exact Or.inl (h1 ▸ List.mem_cons_self d rest)
      · rcases ih h1 with h2 | h2
        · exact Or.inl (List.mem_cons_of_mem d h2)
        · exact Or.inr h2

theorem collapseAux_true_head :
    ∀ (l : List Char) {c : Char},
      (collapseAux true l).head? = some c → isSpaceChar c = false := by
  intro l
  induction l with
  | nil => intro c h; cases h
  | cons d rest ih =>
    intro c h
    by_cases hd : isSpaceChar d = true
    · rw [collapseAux, if_pos hd, if_pos rfl] at h
      exact ih h
    · rw [collapseAux, if_neg hd, List.head?_cons, Option.some_inj] at h
      subst h
      simpa using hd

/-- No two consecutive whitespace characters. -/
def NoTwoSpaces (s : List Char) : Prop :=
  s.Chain' fun a b => ¬(isSpaceChar a = true ∧ isSpaceChar b = true)

theorem collapseAux_chain' (l : List Char) :
    ∀ b : Bool, NoTwoSpaces (collapseAux b l) := by
  induction l with
  | nil => intro b; exact List.chain'_nil
  | cons c rest ih =>
    intro b
    rw [collapseAux]
    split
    · split
      · exact ih true
      · rw [NoTwoSpaces, List.chain'_cons']
        refine ⟨fun y hy => ?_, ih true⟩
        intro ⟨_, h2⟩
        rw [collapseAux_true_head rest hy] at h2
        cases h2
    · rw [NoTwoSpaces, List.chain'_cons']
      rename_i hc
      refine ⟨fun y hy => ?_, ih false⟩
      intro hcon
      exact hc hcon.1

theorem dropWhile_head_not {p : Char → Bool} :
    ∀ {l : List Char} {c : Char}, (l.dropWhile p).head? = some c → p c = false := by
  intro l
  induction l with
  | nil => intro c h; cases h
  | cons d rest ih =>
    intro c h
    by_cases hd : p d = true
    · rw [List.dropWhile_cons, if_pos hd] at h
      exact ih h
    · rw [List.dropWhile_cons, if_neg hd, List.head?_cons, Option.some_inj] at h
      subst h
      simpa using hd

theorem prefix_head?_eq {l₁ l₂ : List Char} (h : l₁ <+: l₂) {c : Char}
    (hc : l₁.head? = some c) : l₂.head? = some c := by
  rcases h with ⟨t, rfl⟩
  rw [List.head?_append, hc]
  rfl

theorem pyStrip_prefix_dropWhile (l : List Char) :
    pyStrip l <+: l.dropWhile isSpaceChar := by
  unfold pyStrip
  rw [← List.reverse_suffix, List.reverse_reverse]
  exact List.dropWhile_suffix _

theorem pyStrip_isInfix (l : List Char) : pyStrip l <:+: l :=
  (pyStrip_prefix_dropWhile l).isInfix.trans (List.dropWhile_suffix _).isInfix

theorem pyStrip_head {l : List Char} {c : Char}
    (h : (pyStrip l).head? = some c) : isSpaceChar c = false :=
  dropWhile_head_not (prefix_head?_eq (pyStrip_prefix_dropWhile l) h)

theorem pyStrip_getLast {l : List Char} {c : Char}
    (h : (pyStrip l).getLast? = some c) : isSpaceChar c = false := by
  unfold pyStrip at h
  rw [List.getLast?_reverse] at h
  exact dropWhile_head_not h

theorem map_eq_self_of_mem {α : Type} {f : α → α} :
    ∀ {l : List α}, (∀ c ∈ l, f c = c) → l.map f = l := by
  intro l
  induction l with
  | nil => intro _; rfl
  | cons a t ih =>
    intro h
    rw [List.map_cons, h a (List.mem_cons_self a t),
      ih fun c hc => h c (List.mem_cons_of_mem a hc)]

/-- Executable check for `NoTwoSpaces` (the library's `Chain'`
decidability does not evaluate). -/
def noTwoSpacesB : List Char → Bool
  | [] => true
  | [_] => true
  | a :: b :: rest => !(isSpaceChar a && isSpaceChar b) && noTwoSpacesB (b :: rest)

theorem noTwoSpacesB_iff : ∀ s : List Char, noTwoSpacesB s = true ↔ NoTwoSpaces s
  | [] => by simp [noTwoSpacesB, NoTwoSpaces]
  | [a] => by simp [noTwoSpacesB, NoTwoSpaces]
  | a :: b :: rest => by
    have ih := noTwoSpacesB_iff (b :: rest)
    rw [noTwoSpacesB, NoTwoSpaces, List.chain'_cons, Bool.and_eq_true, ih]
    constructor
    · rintro ⟨h1, h2⟩
      refine ⟨?_, h2⟩
      rintro ⟨ha, hb⟩
      rw [ha, hb] at h1
      simp at h1
    · rintro ⟨h1, h2⟩
      refine ⟨?_, h2⟩
      by_cases ha : isSpaceChar a = true
      · by_cases hb : isSpaceChar b = true
        · exact absurd ⟨ha, hb⟩ h1
        · simp [ha, hb]
      · simp [ha]

/-- The normalization invariant of C10: the string equals its own
lowercasing, has no leading or trailing whitespace, and contains no two
consecutive whitespace characters. -/
def Normalized (s : List Char) : Prop :=
  s.map pyLower = s ∧
  (∀ c, s.head? = some c → isSpaceChar c = false) ∧
  (∀ c, s.getLast? = some c → isSpaceChar c = false) ∧
  NoTwoSpaces s

/-- Decidable check of `Normalized`, for the finite rule tables. -/
def normB (s : List Char) : Bool :=
  (s.map pyLower == s) &&
  (match s.head? with | none => true | some c => !isSpaceChar c) &&
  (match s.getLast? with | none => true | some c => !isSpaceChar c) &&
  noTwoSpacesB s

theorem normB_spec {s : List Char} (h : normB s = true) : Normalized s := by
  unfold normB at h
  simp only [Bool.and_eq_true] at h
  refine ⟨by simpa using h.1.1.1, ?_, ?_, (noTwoSpacesB_iff s).mp h.2⟩
  · intro c hc
    have h2 := h.1.1.2
    rw [hc] at h2
    simpa using h2
  · intro c hc
    have h2 := h.1.2
    rw [hc] at h2
    simpa using h2

theorem similar_map_outputs_norm :
    ∀ pr ∈ similar_map, normB pr.2.data = true := by decide

theorem replacements_outputs_norm :
    ∀ pr ∈ replacements, normB pr.2.data = true := by decide

theorem applyPatterns_cases (s : List Char) :
    applyPatterns s = s ∨ ∃ pr ∈ similar_map, applyPatterns s = pr.2.data := by
  unfold applyPatterns
  cases h : similar_map.find? fun p => dotStarSuffix p.1.data s with
  | none => exact Or.inl rfl
  | some pr => exact Or.inr ⟨pr, List.mem_of_find?_eq_some h, rfl⟩

theorem applyReplacements_cases (s : List Char) :
    applyReplacements s = s ∨ ∃ pr ∈ replacements, applyReplacements s = pr.2.data := by
  unfold applyReplacements
  cases h : replacements.find? fun p => p.1.data == s with
  | none => exact Or.inl rfl
  | some pr => exact Or.inr ⟨pr, List.mem_of_find?_eq_some h, rfl⟩

/-- The no-rule residue — a stripped, collapsed string of
lowercase-fixed characters — is normalized. -/
theorem residue_normalized (s4 : List Char) (hlow : ∀ c ∈ s4, pyLower c = c) :
    Normalized (pyStrip (collapseSpaces s4)) := by
  refine ⟨map_eq_self_of_mem ?_, fun c hc => pyStrip_head hc,
    fun c hc => pyStrip_getLast hc,
    List.Chain'.infix (collapseAux_chain' s4 false) (pyStrip_isInfix _)⟩
  intro c hc
  have hc2 : c ∈ collapseSpaces s4 := (pyStrip_isInfix _).sublist.subset hc
  rcases collapseAux_mem hc2 with h | h
  · exact hlow c h
  · rw [h]
    decide

/-- Applying the pattern and replacement stages preserves
normalization: the output is either the input or a rule-table literal,
and every rule-table literal is normalized. -/
theorem rules_preserve_normalized {y : List Char} (hy : Normalized y) :
    Normalized (applyReplacements (applyPatterns y)) := by
  rcases applyReplacements_cases (applyPatterns y) with h | ⟨pr, hpr, h⟩
  · rw [h]
    rcases applyPatterns_cases y with h2 | ⟨pr2, hpr2, h2⟩
    · rw [h2]
      exact hy
    · rw [h2]
      exact normB_spec (similar_map_outputs_norm pr2 hpr2)
  · rw [h]
    exact normB_spec (replacements_outputs_norm pr hpr)

/-- C10: for every input string, the canonicalizer's output equals its
own lowercasing, has no leading or trailing whitespace, and contains no
two consecutive whitespace characters — both when a pattern or
exact-string rule fires (all rule outputs are lowercase single-spaced
literals) and when no rule applies (the output is the
whitespace-collapsed, trimmed, lowercased residue). -/
theorem C10_output_normalized (ing : List Char) :
    (extract_main_ingredient ing).map pyLower = extract_main_ingredient ing ∧
    (∀ c, (extract_main_ingredient ing).head? = some c → isSpaceChar c = false) ∧
    (∀ c, (extract_main_ingredient ing).getLast? = some c → isSpaceChar c = false) ∧
    NoTwoSpaces (extract_main_ingredient ing) := by
  have hlow : ∀ c ∈ remMeasurements
      (forms.foldl (fun acc f => subWord f.data acc) (removeParens (ing.map pyLower))),
      pyLower c = c := by
    intro c hc
    have h3 := (remMeasF_sublist _ _ _).subset hc
    have h2 := (foldl_subWord_sublist forms _).subset h3
    have h1 := (removeParensF_sublist _ _).subset h2
    rcases List.mem_map.mp h1 with ⟨c0, _, rfl⟩
    exact pyLower_idem c0
  unfold extract_main_ingredient
  exact rules_preserve_normalized (residue_normalized _ hlow)

/-- C10, witness: the invariant evaluated at a concrete input (the
output `"cheese"` is lowercase-fixed, and its head is not
whitespace). -/
theorem C10_output_normalized_witness :
    (extract_main_ingredient "Shredded  Cheddar Cheese".data).map pyLower =
      extract_main_ingredient "Shredded  Cheddar Cheese".data ∧
    isSpaceChar 'c' = false :=
  ⟨(C10_output_normalized "Shredded  Cheddar Cheese".data).1,
   (C10_output_normalized "Shredded  Cheddar Cheese".data).2.1 'c' (by decide)⟩

end PantryPal
